import Mathlib

/-!
Verification of the Minesweeper inference engine (`minesweeper.py`).

The Python source is shallowly embedded as executable Lean definitions:

* `Sentence` mirrors class `Sentence` (a `Finset` of cells plus an integer
  count; Python set values compare by extensionality, which `Finset` equality
  gives us directly, and Python `==`/`!=` on `Sentence` compares these fields).
* `MinesweeperAI` mirrors class `MinesweeperAI`.
* `MinesweeperAI.add_knowledge` mirrors the method line by line.  The Python
  method iterates over `self.knowledge` with Python's index-based `for` loop
  while calling `list.remove` on the same list; removing an element shifts the
  later elements left, so the iterator skips the element that follows a
  removal.  The embedding reproduces exactly this semantics with an explicit
  index, and reproduces `list.remove`'s behaviour of deleting the first
  element `==`-equal to its argument and raising `ValueError` when none
  exists (the `Bool` in the result is `false` when the Python code would
  raise; the state at that moment is returned, matching the in-place
  mutations already performed).  The loops are written with explicit fuel and
  return `Option`; fuel sufficiency is proved (claim C8).
* `Minesweeper` mirrors the game class; the stream of `random.randrange`
  pairs drawn by `__init__` is passed in explicitly as a list of picks, each
  in bounds, exactly the values `randrange(height)`/`randrange(width)` can
  produce.

Iteration order over Python sets is unspecified; wherever the source
iterates over a set and the result is order-independent (marking every cell
of a `known_safes()`/`known_mines()` snapshot), the embedding iterates in
row-major order (`cellList`).
-/

abbrev Cell : Type := ℤ × ℤ

/-- Row-major order on cells, used to pick a concrete (executable) iteration
order wherever the Python source iterates over a set and the outcome is
order-independent. -/
def cellLe (a b : Cell) : Prop := a.1 < b.1 ∨ (a.1 = b.1 ∧ a.2 ≤ b.2)

instance : DecidableRel cellLe := fun a b => by
  unfold cellLe; infer_instance

instance : IsTrans Cell cellLe :=
  ⟨by intro a b c hab hbc; rcases hab with h | ⟨h1, h2⟩ <;> rcases hbc with h' | ⟨h1', h2'⟩ <;>
      unfold cellLe <;> omega⟩

instance : IsAntisymm Cell cellLe :=
  ⟨by
    intro a b hab hba
    have h1 : a.1 = b.1 := by rcases hab with h | ⟨u, v⟩ <;> rcases hba with h' | ⟨u', v'⟩ <;> omega
    have h2 : a.2 = b.2 := by rcases hab with h | ⟨u, v⟩ <;> rcases hba with h' | ⟨u', v'⟩ <;> omega
    exact Prod.ext h1 h2⟩

instance : IsTotal Cell cellLe :=
  ⟨by intro a b; unfold cellLe; omega⟩

/-- The cells of a finite set listed in row-major order.  (Insertion sort is
used because it is structurally recursive, so concrete runs of the embedding
reduce inside the kernel.) -/
def cellList (s : Finset Cell) : List Cell :=
  Quot.liftOn s.val (fun l => l.insertionSort cellLe) (fun l1 l2 p =>
    List.eq_of_perm_of_sorted
      ((List.perm_insertionSort cellLe l1).trans
        (p.trans (List.perm_insertionSort cellLe l2).symm))
      (List.sorted_insertionSort cellLe l1)
      (List.sorted_insertionSort cellLe l2))

/-- Class `Sentence`: a set of board cells and a count of how many of them
are mines.  `count` is a Python `int`, so it is modelled as `ℤ` (the code
can drive it below zero). -/
structure Sentence where
  cells : Finset Cell
  count : ℤ
deriving DecidableEq

/-- Method `Sentence.known_mines`: the full cell set if `len(self.cells) == self.count`,
else the empty set. -/
def Sentence.known_mines (s : Sentence) : Finset Cell :=
  if (s.cells.card : ℤ) = s.count then s.cells else ∅

/-- Method `Sentence.known_safes`: the full cell set if `self.count == 0`, else the
empty set. -/
def Sentence.known_safes (s : Sentence) : Finset Cell :=
  if s.count = 0 then s.cells else ∅

/-- Method `Sentence.mark_mine`: if the cell is present, remove it and decrement
`count` by one; otherwise do nothing. -/
def Sentence.mark_mine (s : Sentence) (c : Cell) : Sentence :=
  if c ∈ s.cells then ⟨s.cells.erase c, s.count - 1⟩ else s

/-- Method `Sentence.mark_safe`: if the cell is present, remove it; `count` is
unchanged; otherwise do nothing. -/
def Sentence.mark_safe (s : Sentence) (c : Cell) : Sentence :=
  if c ∈ s.cells then ⟨s.cells.erase c, s.count⟩ else s

/-- Class `MinesweeperAI`: board dimensions, the moves made, the cells known
to be mines or safe, and the list of sentences (Python keeps them in a
`list`, so order and multiplicity matter). -/
structure MinesweeperAI where
  height : ℤ
  width : ℤ
  moves_made : Finset Cell
  mines : Finset Cell
  safes : Finset Cell
  knowledge : List Sentence
deriving DecidableEq

/-- Constructor `MinesweeperAI.__init__(height, width)`. -/
def MinesweeperAI.initial (h w : ℤ) : MinesweeperAI :=
  ⟨h, w, ∅, ∅, ∅, []⟩

/-- Method `MinesweeperAI.mark_mine`: add the cell to `self.mines` and call
`Sentence.mark_mine` on every sentence in `self.knowledge`. -/
def MinesweeperAI.mark_mine (ai : MinesweeperAI) (c : Cell) : MinesweeperAI :=
  { ai with
    mines := insert c ai.mines
    knowledge := ai.knowledge.map (fun s => s.mark_mine c) }

/-- Method `MinesweeperAI.mark_safe`: add the cell to `self.safes` and call
`Sentence.mark_safe` on every sentence in `self.knowledge`. -/
def MinesweeperAI.mark_safe (ai : MinesweeperAI) (c : Cell) : MinesweeperAI :=
  { ai with
    safes := insert c ai.safes
    knowledge := ai.knowledge.map (fun s => s.mark_safe c) }

/-- Steps 1 and 2 of `add_knowledge`: `self.moves_made.add(cell)` followed by
`self.mark_safe(cell)`. -/
def MinesweeperAI.observe (ai : MinesweeperAI) (c : Cell) : MinesweeperAI :=
  ({ ai with moves_made := insert c ai.moves_made }).mark_safe c

/-- The nine index pairs visited by the nested loops
`for i in range(cell[0]-1, cell[0]+2): for j in range(cell[1]-1, cell[1]+2)`,
in loop order. -/
def neighborPairs (c : Cell) : List Cell :=
  [(c.1 - 1, c.2 - 1), (c.1 - 1, c.2), (c.1 - 1, c.2 + 1),
   (c.1, c.2 - 1), (c.1, c.2), (c.1, c.2 + 1),
   (c.1 + 1, c.2 - 1), (c.1 + 1, c.2), (c.1 + 1, c.2 + 1)]

/-- One iteration of the neighbour-collection loop body: the state is the
`adjCells` list built so far together with the working `count`.  The guard
is `i >= 0 and j >= 0 and i < self.height and j < self.width and
not (i,j) in self.safes`; a neighbour already in `self.mines` decrements the
working count, otherwise it is appended to `adjCells`. -/
def adjStep (ai : MinesweeperAI) (st : List Cell × ℤ) (p : Cell) : List Cell × ℤ :=
  if 0 ≤ p.1 ∧ 0 ≤ p.2 ∧ p.1 < ai.height ∧ p.2 < ai.width ∧ p ∉ ai.safes then
    if p ∈ ai.mines then (st.1, st.2 - 1) else (st.1 ++ [p], st.2)
  else st

/-- The sentence `Sentence(adjCells, count)` built by `add_knowledge` from the
neighbourhood of the observed cell (`ai` here is the state after
`self.mark_safe(cell)`, as in the source). -/
def newSentenceOf (ai : MinesweeperAI) (c : Cell) (count : ℤ) : Sentence :=
  let st := (neighborPairs c).foldl (adjStep ai) ([], count)
  ⟨st.1.toFinset, st.2⟩

/-- One iteration of the re-evaluation loop
`for sentence in self.knowledge:` — take a snapshot of
`sentence.known_safes()`, mark each of those cells safe, then re-read the
(in-place mutated) sentence, and mark each cell of its `known_mines()` as a
mine.  The list is not structurally modified by this loop, so the iteration
is by index over the original length. -/
def propStep (ai : MinesweeperAI) (i : ℕ) : MinesweeperAI :=
  let s := ai.knowledge.getD i ⟨∅, 0⟩
  let ai1 := (cellList s.known_safes).foldl MinesweeperAI.mark_safe ai
  let s2 := ai1.knowledge.getD i ⟨∅, 0⟩
  (cellList s2.known_mines).foldl MinesweeperAI.mark_mine ai1

/-- The whole re-evaluation pass (lines 214-220 of the source). -/
def propPhase (ai : MinesweeperAI) : MinesweeperAI :=
  (List.range ai.knowledge.length).foldl propStep ai

/-- Python `list.remove(v)`: delete the first element `==`-equal to `v`;
`none` models the `ValueError` raised when no such element exists. -/
def removeFirst : List Sentence → Sentence → Option (List Sentence)
  | [], _ => none
  | x :: xs, v =>
    if x = v then some xs
    else
      match removeFirst xs v with
      | some t => some (x :: t)
      | none => none

/-- The statement `if <v>.cells == set(): self.knowledge.remove(<v>)` that
opens each iteration of both scan loops (lines 226-227 and 229-230): remove
the first sentence equal to the yielded one when its cell set is empty.
(The `getD` fallback is never taken at the call sites: the yielded element
is in the list, so an equal element exists.) -/
def removeIfEmptyAt (K : List Sentence) (v : Sentence) : List Sentence :=
  if v.cells = ∅ then (removeFirst K v).getD K else K

/-- The inner loop `for otherSentence in self.knowledge:` of the pairwise
scan, iterating by index `j` on the mutating list `K`, with `s` the (stale)
value bound to `sentence` by the outer loop and `ds` the `newKnowledge`
accumulator.  Removing an element shifts the later ones left, exactly as in
Python.  Result: `(knowledge, newKnowledge, ok)` where `ok = false` records
a `ValueError` from `self.knowledge.remove(sentence)` (the derived sentences
`ds` are discarded by the caller in that case, since the Python exception
propagates before `extend` runs).  `none` means the fuel ran out, which is
proved impossible. -/
def innerScan : ℕ → List Sentence → Sentence → ℕ → List Sentence →
    Option (List Sentence × List Sentence × Bool)
  | 0, _, _, _, _ => none
  | fuel + 1, K, s, j, ds =>
    if h : j < K.length then
      let other := K.get ⟨j, h⟩
      let K1 := removeIfEmptyAt K other
      if s.cells ≠ ∅ ∧ other.cells ≠ ∅ ∧ s ≠ other then
        if other.cells.card < s.cells.card ∧ other.cells ⊆ s.cells then
          match removeFirst K1 s with
          | some K2 =>
              innerScan fuel K2 s (j + 1)
                (ds ++ [⟨s.cells \ other.cells, s.count - other.count⟩])
          | none => some (K1, ds, false)
        else if s.cells.card < other.cells.card ∧ s.cells ⊆ other.cells then
          match removeFirst K1 other with
          | some K2 =>
              innerScan fuel K2 s (j + 1)
                (ds ++ [⟨other.cells \ s.cells, other.count - s.count⟩])
          | none => some (K1, ds, false)
        else innerScan fuel K1 s (j + 1) ds
      else innerScan fuel K1 s (j + 1) ds
    else some (K, ds, true)

/-- The outer loop `for sentence in self.knowledge:` of the pairwise scan
(lines 225-241), again with Python's index semantics.  Each iteration first
removes the yielded sentence if its cell set is empty, then runs the inner
loop. -/
def outerScan : ℕ → List Sentence → ℕ → List Sentence →
    Option (List Sentence × List Sentence × Bool)
  | 0, _, _, _ => none
  | fuel + 1, K, i, ds =>
    if h : i < K.length then
      let s := K.get ⟨i, h⟩
      let K1 := removeIfEmptyAt K s
      match innerScan (K1.length + 1) K1 s 0 ds with
      | none => none
      | some (K2, ds2, true) => outerScan fuel K2 (i + 1) ds2
      | some (K2, ds2, false) => some (K2, ds2, false)
    else some (K, ds, true)

/-- The state just before the pairwise scan: steps 1-3 (record the move,
mark the cell safe, append the new sentence) followed by the re-evaluation
pass. -/
def MinesweeperAI.preScan (ai : MinesweeperAI) (c : Cell) (count : ℤ) : MinesweeperAI :=
  propPhase { ai.observe c with
    knowledge := (ai.observe c).knowledge ++ [newSentenceOf (ai.observe c) c count] }

/-- Method `MinesweeperAI.add_knowledge(cell, count)`.  `some (ai, true)` is a
normal return, `some (ai, false)` is a `ValueError` escaping from the scan
(with the in-place mutations up to that point kept, and the local
`newKnowledge` list lost), and `none` is fuel exhaustion (proved
impossible, claim C8). -/
def MinesweeperAI.add_knowledge (ai : MinesweeperAI) (c : Cell) (count : ℤ) :
    Option (MinesweeperAI × Bool) :=
  match outerScan ((ai.preScan c count).knowledge.length + 1) (ai.preScan c count).knowledge 0 [] with
  | none => none
  | some (K, ds, true) => some ({ ai.preScan c count with knowledge := K ++ ds }, true)
  | some (K, _, false) => some ({ ai.preScan c count with knowledge := K }, false)

/-- Method `MinesweeperAI.make_safe_move`: some cell in `self.safes` not in
`self.moves_made`, or `None`.  (Set iteration order is unspecified; the
embedding scans the row-major listing.)  The method mutates nothing. -/
def MinesweeperAI.make_safe_move (ai : MinesweeperAI) : Option Cell :=
  (cellList ai.safes).find? (fun x => decide (x ∉ ai.moves_made))

/-- The eligible cells of `MinesweeperAI.make_random_move`: in bounds, not a
known mine, not already played.  `random.choice` picks among these; the
method mutates nothing. -/
def MinesweeperAI.random_candidates (ai : MinesweeperAI) : List Cell :=
  (List.range ai.height.toNat).flatMap (fun i =>
    (List.range ai.width.toNat).filterMap (fun j =>
      if ((i : ℤ), (j : ℤ)) ∉ ai.mines ∧ ((i : ℤ), (j : ℤ)) ∉ ai.moves_made
      then some ((i : ℤ), (j : ℤ)) else none))

/-- The operations a driver can invoke on a `MinesweeperAI`.  The two query
methods perform no state mutation, so they leave the state unchanged; an
`add_knowledge` call updates the state to the returned one (on the
fuel-exhaustion case, proved impossible, the state is kept). -/
inductive AIOp : Type
  | addK : Cell → ℤ → AIOp
  | mMine : Cell → AIOp
  | mSafe : Cell → AIOp
  | safeMove : AIOp
  | randomMove : AIOp
deriving DecidableEq

/-- Effect of one operation on the knowledge-base state. -/
def applyOp (ai : MinesweeperAI) : AIOp → MinesweeperAI
  | .addK c n =>
      match ai.add_knowledge c n with
      | some (a, _) => a
      | none => ai
  | .mMine c => ai.mark_mine c
  | .mSafe c => ai.mark_safe c
  | .safeMove => ai
  | .randomMove => ai

/-- Effect of a sequence of operations. -/
def applyOps (ai : MinesweeperAI) (ops : List AIOp) : MinesweeperAI :=
  ops.foldl applyOp ai

/-- Class `Minesweeper` (the game board): dimensions, the boolean board
(`board[i][j]` is `True` iff that cell holds a mine), the mine set, and the
mines the player has flagged.  Row/column indices produced by
`random.randrange` are naturals. -/
structure Minesweeper where
  height : ℕ
  width : ℕ
  board : List (List Bool)
  mines : Finset (ℕ × ℕ)
  mines_found : Finset (ℕ × ℕ)
deriving DecidableEq

/-- The empty field built by the two initialisation loops: `height` rows of
`width` entries, all `False`. -/
def emptyBoard (h w : ℕ) : List (List Bool) := List.replicate h (List.replicate w false)

/-- Reading `self.board[i][j]` (out-of-range reads never happen in the
source; the default is arbitrary). -/
def boardGet (b : List (List Bool)) (c : ℕ × ℕ) : Bool :=
  (b.getD c.1 []).getD c.2 false

/-- Writing `self.board[i][j] = True`. -/
def boardSet (b : List (List Bool)) (c : ℕ × ℕ) : List (List Bool) :=
  b.set c.1 ((b.getD c.1 []).set c.2 true)

/-- The mine-placement loop of `Minesweeper.__init__`:
`while len(self.mines) != mines:` draw `(i, j)` (the successive values of
`random.randrange(height)`/`random.randrange(width)` are supplied as
`picks`); if `board[i][j]` is still `False`, add the cell to `self.mines`
and set `board[i][j] = True`.  `none` means the supplied random stream was
exhausted before the loop finished. -/
def placeMines (target : ℕ) :
    List (ℕ × ℕ) → Finset (ℕ × ℕ) → List (List Bool) →
    Option (Finset (ℕ × ℕ) × List (List Bool))
  | picks, m, b =>
    if m.card = target then some (m, b)
    else
      match picks with
      | [] => none
      | p :: ps =>
        if boardGet b p then placeMines target ps m b
        else placeMines target ps (insert p m) (boardSet b p)

/-- Constructor `Minesweeper.__init__(height, width, mines)` for a given stream of
random picks.  `self.mines_found` starts empty. -/
def Minesweeper.init (h w n : ℕ) (picks : List (ℕ × ℕ)) : Option Minesweeper :=
  match placeMines n picks ∅ (emptyBoard h w) with
  | some (m, b) => some ⟨h, w, b, m, ∅⟩
  | none => none

/-- Method `Minesweeper.is_mine(cell)`: `self.board[i][j]`. -/
def Minesweeper.is_mine (g : Minesweeper) (c : ℕ × ℕ) : Bool := boardGet g.board c

/-- Method `Minesweeper.nearby_mines(cell)`: count the mines among the in-bounds
cells within one row and column of `cell`, the cell itself excluded. -/
def Minesweeper.nearby_mines (g : Minesweeper) (c : ℕ × ℕ) : ℕ :=
  (neighborPairs ((c.1 : ℤ), (c.2 : ℤ))).foldl (fun acc p =>
    if p = ((c.1 : ℤ), (c.2 : ℤ)) then acc
    else if 0 ≤ p.1 ∧ p.1 < (g.height : ℤ) ∧ 0 ≤ p.2 ∧ p.2 < (g.width : ℤ) then
      if boardGet g.board (p.1.toNat, p.2.toNat) then acc + 1 else acc
    else acc) 0

/-- Method `Minesweeper.won()`: whether the flagged set equals the mine set. -/
def Minesweeper.won (g : Minesweeper) : Bool := g.mines_found = g.mines

/-- The operations callable on a constructed game.  Every method of the
class other than `__init__` only reads the state (no method assigns to
`self.board`, `self.mines`, or `self.mines_found`), so each operation
returns the state unchanged. -/
inductive GameOp : Type
  | isMineQ : ℕ × ℕ → GameOp
  | nearbyQ : ℕ × ℕ → GameOp
  | wonQ : GameOp
  | printQ : GameOp
deriving DecidableEq

/-- Effect of a game operation on the game state: all four methods are pure
reads in the source. -/
def applyGameOp (g : Minesweeper) : GameOp → Minesweeper
  | .isMineQ _ => g
  | .nearbyQ _ => g
  | .wonQ => g
  | .printQ => g

/-! ### Helper lemmas about the two `Sentence` mutators -/

theorem sentence_mark_mine_twice (s : Sentence) (c : Cell) :
    (s.mark_mine c).mark_mine c = s.mark_mine c := by
  by_cases h : c ∈ s.cells
  · simp [Sentence.mark_mine, h]
  · simp [Sentence.mark_mine, h]

theorem sentence_mark_safe_twice (s : Sentence) (c : Cell) :
    (s.mark_safe c).mark_safe c = s.mark_safe c := by
  by_cases h : c ∈ s.cells
  · simp [Sentence.mark_safe, h]
  · simp [Sentence.mark_safe, h]

theorem map_mark_mine_twice (l : List Sentence) (c : Cell) :
    (l.map (fun s => s.mark_mine c)).map (fun s => s.mark_mine c)
      = l.map (fun s => s.mark_mine c) := by
  induction l with
  | nil => rfl
  | cons x xs ih =>
      simp only [List.map_cons]
      rw [sentence_mark_mine_twice]
      exact congrArg _ ih

theorem map_mark_safe_twice (l : List Sentence) (c : Cell) :
    (l.map (fun s => s.mark_safe c)).map (fun s => s.mark_safe c)
      = l.map (fun s => s.mark_safe c) := by
  induction l with
  | nil => rfl
  | cons x xs ih =>
      simp only [List.map_cons]
      rw [sentence_mark_safe_twice]
      exact congrArg _ ih

theorem ai_mark_mine_twice (ai : MinesweeperAI) (c : Cell) :
    (ai.mark_mine c).mark_mine c = ai.mark_mine c := by
  cases ai with
  | mk h w mm mi sa kn =>
      show MinesweeperAI.mk h w mm (insert c (insert c mi)) sa
          ((kn.map (fun s => s.mark_mine c)).map (fun s => s.mark_mine c))
        = MinesweeperAI.mk h w mm (insert c mi) sa (kn.map (fun s => s.mark_mine c))
      rw [Finset.insert_idem, map_mark_mine_twice]

theorem ai_mark_safe_twice (ai : MinesweeperAI) (c : Cell) :
    (ai.mark_safe c).mark_safe c = ai.mark_safe c := by
  cases ai with
  | mk h w mm mi sa kn =>
      show MinesweeperAI.mk h w mm mi (insert c (insert c sa))
          ((kn.map (fun s => s.mark_safe c)).map (fun s => s.mark_safe c))
        = MinesweeperAI.mk h w mm mi (insert c sa) (kn.map (fun s => s.mark_safe c))
      rw [Finset.insert_idem, map_mark_safe_twice]

/-- Claim C7: `mark_mine`/`mark_safe` called twice with the same cell give
the same state as called once, on a `Sentence` and on the whole
`MinesweeperAI` state; on a `Sentence`, `mark_mine` of a present cell
removes it and decrements `count` by exactly one, `mark_safe` removes it
leaving `count` unchanged, and both are no-ops on an absent cell. -/
theorem ms_C7_mark_idempotent (s : Sentence) (ai : MinesweeperAI) (c : Cell) :
    ((s.mark_mine c).mark_mine c = s.mark_mine c) ∧
    ((s.mark_safe c).mark_safe c = s.mark_safe c) ∧
    (c ∈ s.cells →
      (s.mark_mine c).cells = s.cells.erase c ∧ (s.mark_mine c).count = s.count - 1 ∧
      (s.mark_safe c).cells = s.cells.erase c ∧ (s.mark_safe c).count = s.count) ∧
    (c ∉ s.cells → s.mark_mine c = s ∧ s.mark_safe c = s) ∧
    ((ai.mark_mine c).mark_mine c = ai.mark_mine c) ∧
    ((ai.mark_safe c).mark_safe c = ai.mark_safe c) := by
  refine ⟨sentence_mark_mine_twice s c, sentence_mark_safe_twice s c, ?_, ?_,
    ai_mark_mine_twice ai c, ai_mark_safe_twice ai c⟩
  · intro h
    simp [Sentence.mark_mine, Sentence.mark_safe, h]
  · intro h
    simp [Sentence.mark_mine, Sentence.mark_safe, h]

/-- Witness for C7 at a concrete sentence, state and cell. -/
theorem ms_C7_mark_idempotent_witness :
    ((0:ℤ),(0:ℤ)) ∈ (Sentence.mk {((0:ℤ),(0:ℤ)), ((1:ℤ),(1:ℤ))} 2).cells ∧
    ((Sentence.mk {((0:ℤ),(0:ℤ)), ((1:ℤ),(1:ℤ))} 2).mark_mine (0,0)).cells
        = ({((0:ℤ),(0:ℤ)), ((1:ℤ),(1:ℤ))} : Finset Cell).erase (0,0) ∧
    ((Sentence.mk {((0:ℤ),(0:ℤ)), ((1:ℤ),(1:ℤ))} 2).mark_mine (0,0)).count = 2 - 1 ∧
    ((Sentence.mk {((0:ℤ),(0:ℤ)), ((1:ℤ),(1:ℤ))} 2).mark_safe (0,0)).count = 2 := by
  have h := ms_C7_mark_idempotent (Sentence.mk {((0:ℤ),(0:ℤ)), ((1:ℤ),(1:ℤ))} 2)
    (MinesweeperAI.initial 2 2) (0,0)
  obtain ⟨-, -, hmem, -, -, -⟩ := h
  obtain ⟨u1, u2, u3, u4⟩ := hmem (by decide)
  exact ⟨by decide, u1, u2, u4⟩

/-- Claim C6: `known_mines` returns the full cell set exactly when the count
equals the number of cells, and `known_safes` returns the full cell set
exactly when the count is zero; otherwise both return the empty set.  (Both
queries are pure: the embedding reads the sentence and builds a fresh set,
mirroring `set(self.cells)` in the source, so the sentence is untouched.) -/
theorem ms_C6_known_queries (s : Sentence) :
    (s.count = (s.cells.card : ℤ) → s.known_mines = s.cells) ∧
    (s.count ≠ (s.cells.card : ℤ) → s.known_mines = ∅) ∧
    (s.count = 0 → s.known_safes = s.cells) ∧
    (s.count ≠ 0 → s.known_safes = ∅) := by
  refine ⟨?_, ?_, ?_, ?_⟩ <;> intro h
  · rw [Sentence.known_mines, if_pos h.symm]
  · rw [Sentence.known_mines, if_neg (fun hc => h hc.symm)]
  · rw [Sentence.known_safes, if_pos h]
  · rw [Sentence.known_safes, if_neg h]

/-- Witness for C6 at concrete sentences. -/
theorem ms_C6_known_queries_witness :
    (Sentence.mk {((0:ℤ),(0:ℤ))} 1).known_mines = {((0:ℤ),(0:ℤ))} ∧
    (Sentence.mk {((0:ℤ),(0:ℤ)), ((1:ℤ),(1:ℤ))} 1).known_mines = ∅ ∧
    (Sentence.mk {((0:ℤ),(1:ℤ))} 0).known_safes = {((0:ℤ),(1:ℤ))} ∧
    (Sentence.mk {((0:ℤ),(0:ℤ))} 1).known_safes = ∅ :=
  ⟨(ms_C6_known_queries _).1 (by decide),
   (ms_C6_known_queries _).2.1 (by decide),
   (ms_C6_known_queries _).2.2.1 (by decide),
   (ms_C6_known_queries _).2.2.2 (by decide)⟩

/-! ### C9: the observed cell never enters the new sentence -/

theorem adjStep_fold_not_mem (ai : MinesweeperAI) (x : Cell) (hx : x ∈ ai.safes) :
    ∀ (ps : List Cell) (st : List Cell × ℤ), x ∉ st.1 →
      x ∉ (ps.foldl (adjStep ai) st).1 := by
  intro ps
  induction ps with
  | nil => intro st h; exact h
  | cons p ps ih =>
      intro st h
      apply ih
      unfold adjStep
      by_cases hg : 0 ≤ p.1 ∧ 0 ≤ p.2 ∧ p.1 < ai.height ∧ p.2 < ai.width ∧ p ∉ ai.safes
      · rw [if_pos hg]
        by_cases hm : p ∈ ai.mines
        · rw [if_pos hm]; exact h
        · rw [if_neg hm]
          simp only [List.mem_append, List.mem_singleton]
          rintro (hin | rfl)
          · exact h hin
          · exact hg.2.2.2.2 hx
      · rw [if_neg hg]; exact h

/-- Claim C9: the sentence built from an observation never contains the
observed cell itself, even though the neighbour loops range over the cell's
own coordinates — the cell is marked safe first, so the
`not (i,j) in self.safes` guard filters it out. -/
theorem ms_C9_observed_cell_excluded (ai : MinesweeperAI) (c : Cell) (count : ℤ) :
    c ∉ (newSentenceOf (ai.observe c) c count).cells := by
  have hc : c ∈ (ai.observe c).safes := Finset.mem_insert_self c _
  unfold newSentenceOf
  simp only [List.mem_toFinset]
  exact adjStep_fold_not_mem _ _ hc _ _ (by simp)

/-! ### C3: `mines` and `safes` grow monotonically; disjointness fails -/

theorem foldl_grows {α : Type} (proj : MinesweeperAI → Finset Cell)
    (g : MinesweeperAI → α → MinesweeperAI)
    (hg : ∀ a x, proj a ⊆ proj (g a x)) :
    ∀ (l : List α) (a : MinesweeperAI), proj a ⊆ proj (l.foldl g a) := by
  intro l
  induction l with
  | nil => intro a; exact subset_rfl
  | cons x xs ih => intro a; exact (hg a x).trans (ih (g a x))

theorem foldl_mark_safe_mines (l : List Cell) (a : MinesweeperAI) :
    (l.foldl MinesweeperAI.mark_safe a).mines = a.mines := by
  induction l generalizing a with
  | nil => rfl
  | cons x xs ih => exact ih (a.mark_safe x)

theorem foldl_mark_mine_safes (l : List Cell) (a : MinesweeperAI) :
    (l.foldl MinesweeperAI.mark_mine a).safes = a.safes := by
  induction l generalizing a with
  | nil => rfl
  | cons x xs ih => exact ih (a.mark_mine x)

theorem propStep_grows (ai : MinesweeperAI) (i : ℕ) :
    ai.mines ⊆ (propStep ai i).mines ∧ ai.safes ⊆ (propStep ai i).safes := by
  have hshape : propStep ai i =
      (cellList (((cellList (ai.knowledge.getD i ⟨∅, 0⟩).known_safes).foldl
          MinesweeperAI.mark_safe ai).knowledge.getD i ⟨∅, 0⟩).known_mines).foldl
        MinesweeperAI.mark_mine
        ((cellList (ai.knowledge.getD i ⟨∅, 0⟩).known_safes).foldl
          MinesweeperAI.mark_safe ai) := rfl
  rw [hshape]
  constructor
  · refine subset_trans (subset_of_eq (foldl_mark_safe_mines
      (cellList (ai.knowledge.getD i ⟨∅, 0⟩).known_safes) ai).symm) ?_
    exact foldl_grows (fun a => a.mines) MinesweeperAI.mark_mine
      (fun a x => Finset.subset_insert x a.mines) _ _
  · rw [foldl_mark_mine_safes]
    exact foldl_grows (fun a => a.safes) MinesweeperAI.mark_safe
      (fun a x => Finset.subset_insert x a.safes) _ ai

theorem propPhase_grows (ai : MinesweeperAI) :
    ai.mines ⊆ (propPhase ai).mines ∧ ai.safes ⊆ (propPhase ai).safes := by
  unfold propPhase
  exact ⟨foldl_grows (fun a => a.mines) propStep (fun a x => (propStep_grows a x).1) _ ai,
    foldl_grows (fun a => a.safes) propStep (fun a x => (propStep_grows a x).2) _ ai⟩

theorem add_knowledge_state {ai : MinesweeperAI} {c : Cell} {n : ℤ}
    {ai2 : MinesweeperAI} {b : Bool} (h : ai.add_knowledge c n = some (ai2, b)) :
    ai2.mines = (ai.preScan c n).mines ∧ ai2.safes = (ai.preScan c n).safes ∧
    ai2.moves_made = (ai.preScan c n).moves_made := by
  unfold MinesweeperAI.add_knowledge at h
  rcases houter : outerScan ((ai.preScan c n).knowledge.length + 1) (ai.preScan c n).knowledge 0 []
    with _ | ⟨K, ds, ok⟩
  · rw [houter] at h; exact absurd h (by simp)
  · rw [houter] at h
    cases ok
    · simp only [Option.some.injEq, Prod.mk.injEq] at h
      rw [← h.1]
      exact ⟨rfl, rfl, rfl⟩
    · simp only [Option.some.injEq, Prod.mk.injEq] at h
      rw [← h.1]
      exact ⟨rfl, rfl, rfl⟩

theorem preScan_grows (ai : MinesweeperAI) (c : Cell) (n : ℤ) :
    ai.mines ⊆ (ai.preScan c n).mines ∧ ai.safes ⊆ (ai.preScan c n).safes := by
  unfold MinesweeperAI.preScan
  constructor
  · exact subset_trans (subset_of_eq rfl)
      ((propPhase_grows { ai.observe c with
        knowledge := (ai.observe c).knowledge ++ [newSentenceOf (ai.observe c) c n] }).1)
  · exact subset_trans (Finset.subset_insert c ai.safes)
      ((propPhase_grows { ai.observe c with
        knowledge := (ai.observe c).knowledge ++ [newSentenceOf (ai.observe c) c n] }).2)

theorem applyOp_grows (ai : MinesweeperAI) (op : AIOp) :
    ai.mines ⊆ (applyOp ai op).mines ∧ ai.safes ⊆ (applyOp ai op).safes := by
  cases op with
  | addK c n =>
      have e : applyOp ai (AIOp.addK c n)
          = (match ai.add_knowledge c n with
             | some (a, _) => a
             | none => ai) := rfl
      rcases h : ai.add_knowledge c n with _ | ⟨a, b⟩
      · rw [e, h]
        exact ⟨subset_rfl, subset_rfl⟩
      · rw [e, h]
        show ai.mines ⊆ a.mines ∧ ai.safes ⊆ a.safes
        have hs := add_knowledge_state h
        rw [hs.1, hs.2.1]
        exact preScan_grows ai c n
  | mMine c => exact ⟨Finset.subset_insert c ai.mines, subset_rfl⟩
  | mSafe c => exact ⟨subset_rfl, Finset.subset_insert c ai.safes⟩
  | safeMove => exact ⟨subset_rfl, subset_rfl⟩
  | randomMove => exact ⟨subset_rfl, subset_rfl⟩

/-- Claim C3, amended: over any sequence of operations the `mines` and
`safes` sets only ever grow — no cell is ever removed from either.  (The
disjointness half of the original claim fails; see the counterexample.) -/
theorem ms_C3_amended_monotone (ai : MinesweeperAI) (ops : List AIOp) :
    ai.mines ⊆ (applyOps ai ops).mines ∧ ai.safes ⊆ (applyOps ai ops).safes := by
  unfold applyOps
  exact ⟨foldl_grows (fun a => a.mines) applyOp (fun a x => (applyOp_grows a x).1) ops ai,
    foldl_grows (fun a => a.safes) applyOp (fun a x => (applyOp_grows a x).2) ops ai⟩

/-- Claim C3 fails as stated: calling `mark_mine((0,0))` and then
`mark_safe((0,0))` on a fresh AI leaves `(0,0)` in both `mines` and
`safes`, so the two sets do not remain disjoint at every point. -/
theorem ms_C3_counterexample :
    ((0:ℤ),(0:ℤ)) ∈ (applyOps (MinesweeperAI.initial 2 2) [.mMine (0,0), .mSafe (0,0)]).mines ∧
    ((0:ℤ),(0:ℤ)) ∈ (applyOps (MinesweeperAI.initial 2 2) [.mMine (0,0), .mSafe (0,0)]).safes ∧
    (applyOps (MinesweeperAI.initial 2 2) [.mMine (0,0), .mSafe (0,0)]).mines ∩
      (applyOps (MinesweeperAI.initial 2 2) [.mMine (0,0), .mSafe (0,0)]).safes ≠ ∅ := by
  decide

/-! ### C8: fuel sufficiency — `add_knowledge` always returns -/

theorem removeFirst_length : ∀ {K K2 : List Sentence} {v : Sentence},
    removeFirst K v = some K2 → K2.length + 1 = K.length := by
  intro K
  induction K with
  | nil => intro K2 v h; exact absurd h (by simp [removeFirst])
  | cons x xs ih =>
      intro K2 v h
      rw [removeFirst] at h
      split at h
      · cases h
        simp
      · split at h
        · rename_i t hm
          cases h
          have := ih hm
          simp only [List.length_cons]
          omega
        · exact absurd h (by simp)

theorem removeIfEmptyAt_length (K : List Sentence) (v : Sentence) :
    (removeIfEmptyAt K v).length ≤ K.length := by
  unfold removeIfEmptyAt
  split
  · rcases hm : removeFirst K v with _ | t
    · simp
    · have := removeFirst_length hm
      simp only [hm, Option.getD_some]
      omega
  · exact le_rfl

theorem innerScan_length : ∀ (fuel : ℕ) {K : List Sentence} {s : Sentence} {j : ℕ}
    {ds : List Sentence} {r : List Sentence × List Sentence × Bool},
    innerScan fuel K s j ds = some r → r.1.length ≤ K.length := by
  intro fuel
  induction fuel with
  | zero => intro K s j ds r h; exact absurd h (by simp [innerScan])
  | succ n ih =>
      intro K s j ds r h
      simp only [innerScan] at h
      split at h
      · rename_i hj
        split at h
        · split at h
          · split at h
            · rename_i K2 hK2
              have h1 := ih h
              have h2 := removeFirst_length hK2
              have h3 := removeIfEmptyAt_length K (K.get ⟨j, hj⟩)
              omega
            · cases h
              exact removeIfEmptyAt_length K (K.get ⟨j, hj⟩)
          · split at h
            · split at h
              · rename_i K2 hK2
                have h1 := ih h
                have h2 := removeFirst_length hK2
                have h3 := removeIfEmptyAt_length K (K.get ⟨j, hj⟩)
                omega
              · cases h
                exact removeIfEmptyAt_length K (K.get ⟨j, hj⟩)
            · have h1 := ih h
              have h3 := removeIfEmptyAt_length K (K.get ⟨j, hj⟩)
              omega
        · have h1 := ih h
          have h3 := removeIfEmptyAt_length K (K.get ⟨j, hj⟩)
          omega
      · cases h
        exact le_rfl

theorem innerScan_total : ∀ (fuel : ℕ) (K : List Sentence) (s : Sentence) (j : ℕ)
    (ds : List Sentence), K.length - j < fuel → (innerScan fuel K s j ds).isSome = true := by
  intro fuel
  induction fuel with
  | zero => intro K s j ds h; omega
  | succ n ih =>
      intro K s j ds h
      simp only [innerScan]
      split
      · rename_i hj
        split
        · split
          · split
            · rename_i K2 hK2
              apply ih
              have h2 := removeFirst_length hK2
              have h3 := removeIfEmptyAt_length K (K.get ⟨j, hj⟩)
              omega
            · simp
          · split
            · split
              · rename_i K2 hK2
                apply ih
                have h2 := removeFirst_length hK2
                have h3 := removeIfEmptyAt_length K (K.get ⟨j, hj⟩)
                omega
              · simp
            · apply ih
              have h3 := removeIfEmptyAt_length K (K.get ⟨j, hj⟩)
              omega
        · apply ih
          have h3 := removeIfEmptyAt_length K (K.get ⟨j, hj⟩)
          omega
      · simp

theorem outerScan_total : ∀ (fuel : ℕ) (K : List Sentence) (i : ℕ) (ds : List Sentence),
    K.length - i < fuel → (outerScan fuel K i ds).isSome = true := by
  intro fuel
  induction fuel with
  | zero => intro K i ds h; omega
  | succ n ih =>
      intro K i ds h
      simp only [outerScan]
      split
      · rename_i hi
        rcases hinner : innerScan ((removeIfEmptyAt K (K.get ⟨i, hi⟩)).length + 1)
            (removeIfEmptyAt K (K.get ⟨i, hi⟩)) (K.get ⟨i, hi⟩) 0 ds with _ | ⟨K2, ds2, ok⟩
        · have htot := innerScan_total ((removeIfEmptyAt K (K.get ⟨i, hi⟩)).length + 1)
            (removeIfEmptyAt K (K.get ⟨i, hi⟩)) (K.get ⟨i, hi⟩) 0 ds (by omega)
          rw [hinner] at htot
          exact absurd htot (by simp)
        · cases ok
          · simp
          · show (outerScan n K2 (i + 1) ds2).isSome = true
            apply ih
            have h1 : K2.length ≤ (removeIfEmptyAt K (K.get ⟨i, hi⟩)).length :=
              innerScan_length _ hinner
            have h3 := removeIfEmptyAt_length K (K.get ⟨i, hi⟩)
            omega
      · simp

/-- Claim C8: `add_knowledge` terminates on every state — every loop of the
method completes within the supplied fuel bound (one unit per loop
iteration, `knowledge` length plus one for each of the two scan loops), so
the embedding never returns `none`. -/
theorem ms_C8_terminates (ai : MinesweeperAI) (c : Cell) (n : ℤ) :
    (ai.add_knowledge c n).isSome = true := by
  unfold MinesweeperAI.add_knowledge
  rcases houter : outerScan ((ai.preScan c n).knowledge.length + 1)
      (ai.preScan c n).knowledge 0 [] with _ | ⟨K, ds, ok⟩
  · have htot := outerScan_total ((ai.preScan c n).knowledge.length + 1)
      (ai.preScan c n).knowledge 0 [] (by omega)
    rw [houter] at htot
    exact absurd htot (by simp)
  · cases ok <;> simp

/-! ### C1 and C4: concrete runs of `add_knowledge` violating the contracts

Both runs are full games from a fresh AI, consistent with a real board.
C1: 2×3 board with one mine at `(0,1)`; observing `(1,0)` (one adjacent
mine) and then `(1,1)` (one adjacent mine) makes the pairwise scan derive
the sentence `{(0,2),(1,2)} = 0`, which is appended to `knowledge` after
the scan and never re-propagated: `add_knowledge` returns with a live
non-empty count-zero sentence, and neither `(0,2)` nor `(1,2)` is in
`safes`.
C4: 2×2 board with one mine at `(0,1)`; after observing `(0,0)`, `(1,1)`
and `(1,0)` (each with one adjacent mine) the re-evaluation pass empties
all three sentences, and the remove-while-iterating scan deletes only two
of them — the emptied sentence `∅ = 0` survives in `knowledge`. -/

/-- Claim C1 fails on this code: after the second call returns, the
sentence `{(0,2),(1,2)} = 0` — non-empty, with `count == 0` — is still in
the knowledge list, and its cells, though directly determinable as safe
from the newly added observation, are not in `safes`.  The call completes
normally (no exception). -/
theorem ms_C1_code_eval :
    Sentence.mk {((0:ℤ),(2:ℤ)), ((1:ℤ),(2:ℤ))} 0
      ∈ (applyOps (MinesweeperAI.initial 2 3) [.addK (1,0) 1, .addK (1,1) 1]).knowledge ∧
    (Sentence.mk {((0:ℤ),(2:ℤ)), ((1:ℤ),(2:ℤ))} 0).cells ≠ ∅ ∧
    (Sentence.mk {((0:ℤ),(2:ℤ)), ((1:ℤ),(2:ℤ))} 0).count = 0 ∧
    ((0:ℤ),(2:ℤ)) ∉ (applyOps (MinesweeperAI.initial 2 3) [.addK (1,0) 1, .addK (1,1) 1]).safes ∧
    ((1:ℤ),(2:ℤ)) ∉ (applyOps (MinesweeperAI.initial 2 3) [.addK (1,0) 1, .addK (1,1) 1]).safes ∧
    ((applyOps (MinesweeperAI.initial 2 3) [.addK (1,0) 1]).add_knowledge (1,1) 1).map Prod.snd
      = some true := by
  decide

/-- Claim C4 fails on this code: after the third call returns, the emptied
sentence `∅ = 0` is still in the knowledge list (it is the only entry).
The call completes normally (no exception). -/
theorem ms_C4_code_eval :
    (applyOps (MinesweeperAI.initial 2 2)
        [.addK (0,0) 1, .addK (1,1) 1, .addK (1,0) 1]).knowledge
      = [Sentence.mk ∅ 0] ∧
    ((applyOps (MinesweeperAI.initial 2 2) [.addK (0,0) 1, .addK (1,1) 1]).add_knowledge
        (1,0) 1).map Prod.snd = some true := by
  decide

/-- Claim C5 fails as stated: on a 2×2 board with one mine at `(0,1)`,
observing `(0,0)` and then `(1,1)` (each with one adjacent mine) leaves two
equal sentences `{(0,1),(1,0)} = 1` in the knowledge list — duplicates by
value accumulate. -/
theorem ms_C5_counterexample :
    (applyOps (MinesweeperAI.initial 2 2) [.addK (0,0) 1, .addK (1,1) 1]).knowledge
      = [Sentence.mk {((0:ℤ),(1:ℤ)), ((1:ℤ),(0:ℤ))} 1,
         Sentence.mk {((0:ℤ),(1:ℤ)), ((1:ℤ),(0:ℤ))} 1] ∧
    ¬ (applyOps (MinesweeperAI.initial 2 2)
        [.addK (0,0) 1, .addK (1,1) 1]).knowledge.Pairwise (fun a b => a ≠ b) := by
  decide

/-! ### C2: what the pairwise scan actually derives -/

theorem ssubset_of_subset_card_lt {a b : Finset Cell} (hsub : a ⊆ b) (hc : a.card < b.card) :
    a ⊂ b := by
  rw [Finset.ssubset_def]
  exact ⟨hsub, fun hba => absurd (Finset.card_le_card hba) (by omega)⟩

/-- A sentence obtainable by the subset-resolution rule from some qualifying
ordered pair: two distinct non-empty sentences, the second's cells a strict
subset of the first's, with the difference of cells and counts taken. -/
def derivedFromPair (t : Sentence) : Prop :=
  ∃ A B : Sentence, A.cells ≠ ∅ ∧ B.cells ≠ ∅ ∧ A ≠ B ∧ B.cells ⊂ A.cells ∧
    t = ⟨A.cells \ B.cells, A.count - B.count⟩

theorem inner_sound : ∀ (fuel : ℕ) {K : List Sentence} {s : Sentence} {j : ℕ}
    {ds : List Sentence} {r : List Sentence × List Sentence × Bool},
    innerScan fuel K s j ds = some r → (∀ t ∈ ds, derivedFromPair t) →
    ∀ t ∈ r.2.1, derivedFromPair t := by
  intro fuel
  induction fuel with
  | zero => intro K s j ds r h; exact absurd h (by simp [innerScan])
  | succ n ih =>
      intro K s j ds r h hds
      simp only [innerScan] at h
      split at h
      · rename_i hj
        split at h
        · rename_i hguard
          split at h
          · rename_i hcond
            split at h
            · rename_i K2 hK2
              refine ih h ?_
              intro t ht
              rcases List.mem_append.mp ht with h1 | h2
              · exact hds t h1
              · have ht2 := List.mem_singleton.mp h2
                exact ⟨s, K.get ⟨j, hj⟩, hguard.1, hguard.2.1, hguard.2.2,
                  ssubset_of_subset_card_lt hcond.2 hcond.1, ht2⟩
            · cases h
              exact hds
          · split at h
            · rename_i hcond2
              split at h
              · rename_i K2 hK2
                refine ih h ?_
                intro t ht
                rcases List.mem_append.mp ht with h1 | h2
                · exact hds t h1
                · have ht2 := List.mem_singleton.mp h2
                  exact ⟨K.get ⟨j, hj⟩, s, hguard.2.1, hguard.1, (Ne.symm hguard.2.2),
                    ssubset_of_subset_card_lt hcond2.2 hcond2.1, ht2⟩
              · cases h
                exact hds
            · exact ih h hds
        · exact ih h hds
      · cases h
        exact hds

theorem outer_sound : ∀ (fuel : ℕ) {K : List Sentence} {i : ℕ}
    {ds : List Sentence} {r : List Sentence × List Sentence × Bool},
    outerScan fuel K i ds = some r → (∀ t ∈ ds, derivedFromPair t) →
    ∀ t ∈ r.2.1, derivedFromPair t := by
  intro fuel
  induction fuel with
  | zero => intro K i ds r h; exact absurd h (by simp [outerScan])
  | succ n ih =>
      intro K i ds r h hds
      simp only [outerScan] at h
      split at h
      · rename_i hi
        split at h
        · exact absurd h (by simp)
        · rename_i K2 ds2 hinner
          exact ih h (inner_sound _ hinner hds)
        · rename_i K2 ds2 hinner
          cases h
          exact inner_sound _ hinner hds
      · cases h
        exact hds

/-- Claim C2 fails as stated.  A reachable 3×3 game (mines at `(0,0)` and
`(0,2)`; observations `(2,0)`, `(2,2)`, `(1,0)`, `(1,2)` and finally
`(1,1)`) brings the scan-time knowledge collection to
`[{(0,0),(0,1)}=1, {(0,1),(0,2)}=1, {(0,0),(0,1),(0,2)}=2]`.  The pair
`(A,B) = ({(0,0),(0,1),(0,2)}=2, {(0,1),(0,2)}=1)` qualifies (distinct,
non-empty, strict superset), yet the required derived sentence
`A.cells − B.cells = {(0,0)}` with count `2 − 1 = 1` is nowhere in the
returned knowledge: the scan retired `A` while iterating and never
examined this pair. -/
theorem ms_C2_counterexample :
    Sentence.mk {((0:ℤ),(0:ℤ)), ((0:ℤ),(1:ℤ)), ((0:ℤ),(2:ℤ))} 2
      ∈ ((applyOps (MinesweeperAI.initial 3 3)
          [.addK (2,0) 0, .addK (2,2) 0, .addK (1,0) 1, .addK (1,2) 1]).preScan
          (1,1) 2).knowledge ∧
    Sentence.mk {((0:ℤ),(1:ℤ)), ((0:ℤ),(2:ℤ))} 1
      ∈ ((applyOps (MinesweeperAI.initial 3 3)
          [.addK (2,0) 0, .addK (2,2) 0, .addK (1,0) 1, .addK (1,2) 1]).preScan
          (1,1) 2).knowledge ∧
    Sentence.mk {((0:ℤ),(0:ℤ)), ((0:ℤ),(1:ℤ)), ((0:ℤ),(2:ℤ))} 2
      ≠ Sentence.mk {((0:ℤ),(1:ℤ)), ((0:ℤ),(2:ℤ))} 1 ∧
    (Sentence.mk {((0:ℤ),(1:ℤ)), ((0:ℤ),(2:ℤ))} 1).cells
      ⊂ (Sentence.mk {((0:ℤ),(0:ℤ)), ((0:ℤ),(1:ℤ)), ((0:ℤ),(2:ℤ))} 2).cells ∧
    (Sentence.mk {((0:ℤ),(1:ℤ)), ((0:ℤ),(2:ℤ))} 1).cells ≠ ∅ ∧
    Sentence.mk
        (({((0:ℤ),(0:ℤ)), ((0:ℤ),(1:ℤ)), ((0:ℤ),(2:ℤ))} : Finset Cell) \
          {((0:ℤ),(1:ℤ)), ((0:ℤ),(2:ℤ))}) (2 - 1)
      ∉ (applyOps (MinesweeperAI.initial 3 3)
          [.addK (2,0) 0, .addK (2,2) 0, .addK (1,0) 1, .addK (1,2) 1,
           .addK (1,1) 2]).knowledge ∧
    ((applyOps (MinesweeperAI.initial 3 3)
        [.addK (2,0) 0, .addK (2,2) 0, .addK (1,0) 1, .addK (1,2) 1]).add_knowledge
        (1,1) 2).map Prod.snd = some true := by
  decide

/-- Claim C2, amended: on a normal return of `add_knowledge`, the returned
knowledge is the scan's surviving list with the derived sentences appended
after it (they are merged only after the scan completes), and every derived
sentence does come from a qualifying ordered pair — two distinct non-empty
sentences whose cell sets are in strict inclusion, resolved by set and
count difference, the superset side being retired at derivation time.  What
fails in the original claim is only its universal quantification: the scan
does not process every qualifying pair (removing list entries mid-iteration
skips pairs; see the counterexample). -/
theorem ms_C2_merge_after_scan (ai : MinesweeperAI) (c : Cell) (n : ℤ)
    (K ds : List Sentence) (ai2 : MinesweeperAI)
    (hscan : outerScan ((ai.preScan c n).knowledge.length + 1)
      (ai.preScan c n).knowledge 0 [] = some (K, ds, true))
    (hadd : ai.add_knowledge c n = some (ai2, true)) :
    ai2.knowledge = K ++ ds ∧ ∀ t ∈ ds, derivedFromPair t := by
  unfold MinesweeperAI.add_knowledge at hadd
  rw [hscan] at hadd
  simp only [Option.some.injEq, Prod.mk.injEq] at hadd
  constructor
  · rw [← hadd.1]
  · intro t ht
    exact outer_sound _ hscan (by simp) t ht

/-- Witness for the amended C2 at the same reachable 3×3 game. -/
theorem ms_C2_merge_after_scan_witness :
    (applyOps (MinesweeperAI.initial 3 3)
        [.addK (2,0) 0, .addK (2,2) 0, .addK (1,0) 1, .addK (1,2) 1,
         .addK (1,1) 2]).knowledge
      = [Sentence.mk {((0:ℤ),(0:ℤ)), ((0:ℤ),(1:ℤ))} 1,
         Sentence.mk {((0:ℤ),(1:ℤ)), ((0:ℤ),(2:ℤ))} 1]
        ++ [Sentence.mk {((0:ℤ),(2:ℤ))} 1] ∧
    derivedFromPair (Sentence.mk {((0:ℤ),(2:ℤ))} 1) := by
  have h := ms_C2_merge_after_scan
    (applyOps (MinesweeperAI.initial 3 3)
      [.addK (2,0) 0, .addK (2,2) 0, .addK (1,0) 1, .addK (1,2) 1])
    (1,1) 2
    [Sentence.mk {((0:ℤ),(0:ℤ)), ((0:ℤ),(1:ℤ))} 1,
     Sentence.mk {((0:ℤ),(1:ℤ)), ((0:ℤ),(2:ℤ))} 1]
    [Sentence.mk {((0:ℤ),(2:ℤ))} 1]
    (applyOps (MinesweeperAI.initial 3 3)
      [.addK (2,0) 0, .addK (2,2) 0, .addK (1,0) 1, .addK (1,2) 1, .addK (1,1) 2])
    (by decide) (by decide)
  exact ⟨h.1, h.2 _ (by decide)⟩

/-! ### C5: the scan only ever removes empty sentences or retired strict
supersets — duplicates are never removed -/

theorem removeFirst_mem : ∀ {K K2 : List Sentence} {v t : Sentence},
    removeFirst K v = some K2 → t ∈ K → t ∈ K2 ∨ t = v := by
  intro K
  induction K with
  | nil => intro K2 v t h; exact absurd h (by simp [removeFirst])
  | cons x xs ih =>
      intro K2 v t h ht
      rw [removeFirst] at h
      split at h
      · rename_i hx
        cases h
        rcases List.mem_cons.mp ht with rfl | hmem
        · right; exact hx
        · left; exact hmem
      · split at h
        · rename_i u hu
          cases h
          rcases List.mem_cons.mp ht with rfl | hmem
          · left; exact List.mem_cons_self _ _
          · rcases ih hu hmem with h1 | h2
            · left; exact List.mem_cons_of_mem _ h1
            · right; exact h2
        · exact absurd h (by simp)

theorem removeFirst_subset : ∀ {K K2 : List Sentence} {v : Sentence},
    removeFirst K v = some K2 → ∀ t ∈ K2, t ∈ K := by
  intro K
  induction K with
  | nil => intro K2 v h; exact absurd h (by simp [removeFirst])
  | cons x xs ih =>
      intro K2 v h t ht
      rw [removeFirst] at h
      split at h
      · cases h
        exact List.mem_cons_of_mem _ ht
      · split at h
        · rename_i u hu
          cases h
          rcases List.mem_cons.mp ht with rfl | hmem
          · exact List.mem_cons_self _ _
          · exact List.mem_cons_of_mem _ (ih hu t hmem)
        · exact absurd h (by simp)

theorem removeIfEmptyAt_mem (K : List Sentence) (v t : Sentence) (ht : t ∈ K) :
    t ∈ removeIfEmptyAt K v ∨ (t = v ∧ v.cells = ∅) := by
  unfold removeIfEmptyAt
  split
  · rename_i hv
    rcases hm : removeFirst K v with _ | u
    · left; simpa [hm] using ht
    · rcases removeFirst_mem hm ht with h1 | h2
      · left; simpa [hm] using h1
      · right; exact ⟨h2, hv⟩
  · left; exact ht

theorem removeIfEmptyAt_subset (K : List Sentence) (v : Sentence) :
    ∀ t ∈ removeIfEmptyAt K v, t ∈ K := by
  unfold removeIfEmptyAt
  split
  · rcases hm : removeFirst K v with _ | u
    · simp [hm]
    · simp only [hm, Option.getD_some]
      exact fun t ht => removeFirst_subset hm t ht
  · exact fun t ht => ht

theorem inner_subset : ∀ (fuel : ℕ) {K : List Sentence} {s : Sentence} {j : ℕ}
    {ds : List Sentence} {r : List Sentence × List Sentence × Bool},
    innerScan fuel K s j ds = some r → ∀ t ∈ r.1, t ∈ K := by
  intro fuel
  induction fuel with
  | zero => intro K s j ds r h; exact absurd h (by simp [innerScan])
  | succ n ih =>
      intro K s j ds r h
      simp only [innerScan] at h
      split at h
      · rename_i hj
        split at h
        · split at h
          · split at h
            · rename_i K2 hK2
              exact fun t ht => removeIfEmptyAt_subset K _ t
                (removeFirst_subset hK2 t (ih h t ht))
            · cases h
              exact fun t ht => removeIfEmptyAt_subset K _ t ht
          · split at h
            · split at h
              · rename_i K2 hK2
                exact fun t ht => removeIfEmptyAt_subset K _ t
                  (removeFirst_subset hK2 t (ih h t ht))
              · cases h
                exact fun t ht => removeIfEmptyAt_subset K _ t ht
            · exact fun t ht => removeIfEmptyAt_subset K _ t (ih h t ht)
        · exact fun t ht => removeIfEmptyAt_subset K _ t (ih h t ht)
      · cases h
        exact fun t ht => ht

theorem inner_mem : ∀ (fuel : ℕ) {K K0 : List Sentence} {s : Sentence} {j : ℕ}
    {ds : List Sentence} {r : List Sentence × List Sentence × Bool},
    innerScan fuel K s j ds = some r → (∀ x ∈ K, x ∈ K0) → s ∈ K0 →
    ∀ t ∈ K, t ∈ r.1 ∨ t.cells = ∅ ∨ ∃ B ∈ K0, B.cells ≠ ∅ ∧ B.cells ⊂ t.cells := by
  intro fuel
  induction fuel with
  | zero => intro K K0 s j ds r h; exact absurd h (by simp [innerScan])
  | succ n ih =>
      intro K K0 s j ds r h hsub hs
      simp only [innerScan] at h
      split at h
      · rename_i hj
        have hother : K.get ⟨j, hj⟩ ∈ K0 := hsub _ (List.get_mem K j hj)
        have hsub1 : ∀ x ∈ removeIfEmptyAt K (K.get ⟨j, hj⟩), x ∈ K0 :=
          fun x hx => hsub x (removeIfEmptyAt_subset K _ x hx)
        split at h
        · rename_i hguard
          split at h
          · rename_i hcond
            split at h
            · rename_i K2 hK2
              have hsub2 : ∀ x ∈ K2, x ∈ K0 :=
                fun x hx => hsub1 x (removeFirst_subset hK2 x hx)
              intro t ht
              rcases removeIfEmptyAt_mem K (K.get ⟨j, hj⟩) t ht with h1 | ⟨rfl, hemp⟩
              · rcases removeFirst_mem hK2 h1 with h2 | rfl
                · exact ih h hsub2 hs t h2
                · exact Or.inr (Or.inr ⟨K.get ⟨j, hj⟩, hother, hguard.2.1,
                    ssubset_of_subset_card_lt hcond.2 hcond.1⟩)
              · exact Or.inr (Or.inl hemp)
            · cases h
              intro t ht
              rcases removeIfEmptyAt_mem K (K.get ⟨j, hj⟩) t ht with h1 | ⟨rfl, hemp⟩
              · exact Or.inl h1
              · exact Or.inr (Or.inl hemp)
          · split at h
            · rename_i hcond2
              split at h
              · rename_i K2 hK2
                have hsub2 : ∀ x ∈ K2, x ∈ K0 :=
                  fun x hx => hsub1 x (removeFirst_subset hK2 x hx)
                intro t ht
                rcases removeIfEmptyAt_mem K (K.get ⟨j, hj⟩) t ht with h1 | ⟨rfl, hemp⟩
                · rcases removeFirst_mem hK2 h1 with h2 | rfl
                  · exact ih h hsub2 hs t h2
                  · exact Or.inr (Or.inr ⟨s, hs, hguard.1,
                      ssubset_of_subset_card_lt hcond2.2 hcond2.1⟩)
                · exact Or.inr (Or.inl hemp)
              · cases h
                intro t ht
                rcases removeIfEmptyAt_mem K (K.get ⟨j, hj⟩) t ht with h1 | ⟨rfl, hemp⟩
                · exact Or.inl h1
                · exact Or.inr (Or.inl hemp)
            · intro t ht
              rcases removeIfEmptyAt_mem K (K.get ⟨j, hj⟩) t ht with h1 | ⟨rfl, hemp⟩
              · exact ih h hsub1 hs t h1
              · exact Or.inr (Or.inl hemp)
        · intro t ht
          rcases removeIfEmptyAt_mem K (K.get ⟨j, hj⟩) t ht with h1 | ⟨rfl, hemp⟩
          · exact ih h hsub1 hs t h1
          · exact Or.inr (Or.inl hemp)
      · cases h
        exact fun t ht => Or.inl ht

theorem outer_mem : ∀ (fuel : ℕ) {K K0 : List Sentence} {i : ℕ}
    {ds : List Sentence} {r : List Sentence × List Sentence × Bool},
    outerScan fuel K i ds = some r → (∀ x ∈ K, x ∈ K0) →
    ∀ t ∈ K, t ∈ r.1 ∨ t.cells = ∅ ∨ ∃ B ∈ K0, B.cells ≠ ∅ ∧ B.cells ⊂ t.cells := by
  intro fuel
  induction fuel with
  | zero => intro K K0 i ds r h; exact absurd h (by simp [outerScan])
  | succ n ih =>
      intro K K0 i ds r h hsub
      simp only [outerScan] at h
      split at h
      · rename_i hi
        have hsm : K.get ⟨i, hi⟩ ∈ K0 := hsub _ (List.get_mem K i hi)
        have hsub1 : ∀ x ∈ removeIfEmptyAt K (K.get ⟨i, hi⟩), x ∈ K0 :=
          fun x hx => hsub x (removeIfEmptyAt_subset K _ x hx)
        split at h
        · exact absurd h (by simp)
        · rename_i K2 ds2 hinner
          have hsub2 : ∀ x ∈ K2, x ∈ K0 :=
            fun x hx => hsub1 x (inner_subset _ hinner x hx)
          intro t ht
          rcases removeIfEmptyAt_mem K (K.get ⟨i, hi⟩) t ht with h1 | ⟨rfl, hemp⟩
          · rcases inner_mem _ hinner hsub1 hsm t h1 with h2 | hrest
            · exact ih h hsub2 t h2
            · exact Or.inr hrest
          · exact Or.inr (Or.inl hemp)
        · rename_i K2 ds2 hinner
          cases h
          intro t ht
          rcases removeIfEmptyAt_mem K (K.get ⟨i, hi⟩) t ht with h1 | ⟨rfl, hemp⟩
          · rcases inner_mem _ hinner hsub1 hsm t h1 with h2 | hrest
            · exact Or.inl h2
            · exact Or.inr hrest
          · exact Or.inr (Or.inl hemp)
      · cases h
        exact fun t ht => Or.inl ht

/-- Claim C5, amended: `add_knowledge` performs no deduplication, so equal
sentences can accumulate (see the counterexample); what does hold is that
the pairwise scan never removes a sentence for being a duplicate — every
sentence of the scan-time collection either survives into the returned
knowledge, or has an empty cell set, or strictly contains the cell set of
some non-empty sentence of the scan-time collection (it was retired as the
superset half of a resolution step). -/
theorem ms_C5_no_dedup (ai : MinesweeperAI) (c : Cell) (n : ℤ)
    (ai2 : MinesweeperAI) (ok : Bool) (h : ai.add_knowledge c n = some (ai2, ok)) :
    ∀ t ∈ (ai.preScan c n).knowledge,
      t ∈ ai2.knowledge ∨ t.cells = ∅ ∨
      ∃ B ∈ (ai.preScan c n).knowledge, B.cells ≠ ∅ ∧ B.cells ⊂ t.cells := by
  unfold MinesweeperAI.add_knowledge at h
  rcases houter : outerScan ((ai.preScan c n).knowledge.length + 1)
      (ai.preScan c n).knowledge 0 [] with _ | ⟨K, ds, okr⟩
  · rw [houter] at h; exact absurd h (by simp)
  · rw [houter] at h
    cases okr
    · simp only [Option.some.injEq, Prod.mk.injEq] at h
      intro t ht
      rcases outer_mem _ houter (fun x hx => hx) t ht with h1 | hrest
      · left
        rw [← h.1]
        exact h1
      · right; exact hrest
    · simp only [Option.some.injEq, Prod.mk.injEq] at h
      intro t ht
      rcases outer_mem _ houter (fun x hx => hx) t ht with h1 | hrest
      · left
        rw [← h.1]
        exact List.mem_append.mpr (Or.inl h1)
      · right; exact hrest

/-- Witness for the amended C5 at the duplicate-producing 2×2 game: the
duplicated sentence indeed survives into the returned knowledge. -/
theorem ms_C5_no_dedup_witness :
    Sentence.mk {((0:ℤ),(1:ℤ)), ((1:ℤ),(0:ℤ))} 1
      ∈ (applyOps (MinesweeperAI.initial 2 2) [.addK (0,0) 1, .addK (1,1) 1]).knowledge ∨
    (Sentence.mk {((0:ℤ),(1:ℤ)), ((1:ℤ),(0:ℤ))} 1).cells = ∅ ∨
    ∃ B ∈ ((applyOps (MinesweeperAI.initial 2 2) [.addK (0,0) 1]).preScan (1,1) 1).knowledge,
      B.cells ≠ ∅ ∧ B.cells ⊂ (Sentence.mk {((0:ℤ),(1:ℤ)), ((1:ℤ),(0:ℤ))} 1).cells :=
  ms_C5_no_dedup (applyOps (MinesweeperAI.initial 2 2) [.addK (0,0) 1]) (1,1) 1
    (applyOps (MinesweeperAI.initial 2 2) [.addK (0,0) 1, .addK (1,1) 1]) true
    (by decide) (Sentence.mk {((0:ℤ),(1:ℤ)), ((1:ℤ),(0:ℤ))} 1) (by decide)

/-! ### C10: invariants of the constructed game board -/

theorem getD_set {α : Type} : ∀ (l : List α) (i j : ℕ) (x d : α),
    (l.set i x).getD j d = if i = j ∧ j < l.length then x else l.getD j d := by
  intro l
  induction l with
  | nil => intro i j x d; simp
  | cons a as ih =>
      intro i j x d
      cases i with
      | zero =>
          cases j with
          | zero => simp
          | succ k => simp
      | succ t =>
          cases j with
          | zero => simp
          | succ k =>
              simp only [List.set_cons_succ, List.getD_cons_succ, List.length_cons]
              rw [ih t k x d]
              by_cases hc : t = k ∧ k < as.length
              · rw [if_pos hc, if_pos (by omega)]
              · rw [if_neg hc, if_neg (by omega)]

theorem getD_replicate {α : Type} : ∀ (n i : ℕ) (a d : α), i < n →
    (List.replicate n a).getD i d = a := by
  intro n
  induction n with
  | zero => intro i a d h; omega
  | succ k ih =>
      intro i a d h
      cases i with
      | zero => rw [List.replicate_succ]; rfl
      | succ t =>
          rw [List.replicate_succ]
          exact ih t a d (by omega)

theorem getD_mem {α : Type} : ∀ (l : List α) (i : ℕ) (d : α), i < l.length →
    l.getD i d ∈ l := by
  intro l
  induction l with
  | nil => intro i d h; simp at h
  | cons a as ih =>
      intro i d h
      cases i with
      | zero => exact List.mem_cons_self _ _
      | succ t => exact List.mem_cons_of_mem _ (ih t d (by simpa using h))

theorem mem_of_mem_set {α : Type} : ∀ (l : List α) (i : ℕ) (x r : α),
    r ∈ l.set i x → r ∈ l ∨ r = x := by
  intro l
  induction l with
  | nil => intro i x r h; exact absurd h (by simp)
  | cons a as ih =>
      intro i x r h
      cases i with
      | zero =>
          rw [List.set_cons_zero] at h
          rcases List.mem_cons.mp h with rfl | hm
          · right; rfl
          · left; exact List.mem_cons_of_mem _ hm
      | succ t =>
          rw [List.set_cons_succ] at h
          rcases List.mem_cons.mp h with rfl | hm
          · left; exact List.mem_cons_self _ _
          · rcases ih t x r hm with h1 | h2
            · left; exact List.mem_cons_of_mem _ h1
            · right; exact h2

theorem boardGet_boardSet (b : List (List Bool)) (p q : ℕ × ℕ)
    (hp1 : p.1 < b.length) (hp2 : p.2 < (b.getD p.1 []).length) :
    boardGet (boardSet b p) q = if q = p then true else boardGet b q := by
  unfold boardGet boardSet
  rw [getD_set]
  by_cases hr : p.1 = q.1
  · rw [if_pos ⟨hr, by omega⟩, getD_set]
    by_cases hc : p.2 = q.2
    · rw [if_pos ⟨hc, by omega⟩, if_pos (Prod.ext hr.symm hc.symm)]
    · rw [if_neg (by omega), if_neg (fun hq => hc (by rw [hq])), hr]
  · rw [if_neg (by omega), if_neg (fun hq => hr (by rw [hq]))]

theorem placeMines_inv (h w n : ℕ) :
    ∀ (picks : List (ℕ × ℕ)) (m : Finset (ℕ × ℕ)) (b : List (List Bool))
      (res : Finset (ℕ × ℕ) × List (List Bool)),
      (∀ p ∈ picks, p.1 < h ∧ p.2 < w) →
      b.length = h → (∀ r ∈ b, r.length = w) →
      (∀ c ∈ m, c.1 < h ∧ c.2 < w) →
      (∀ i j, i < h → j < w → (boardGet b (i, j) = true ↔ (i, j) ∈ m)) →
      placeMines n picks m b = some res →
      res.1.card = n ∧ res.2.length = h ∧ (∀ r ∈ res.2, r.length = w) ∧
      (∀ c ∈ res.1, c.1 < h ∧ c.2 < w) ∧
      (∀ i j, i < h → j < w → (boardGet res.2 (i, j) = true ↔ (i, j) ∈ res.1)) := by
  intro picks
  induction picks with
  | nil =>
      intro m b res hp hlen hrow hbound hagree hpm
      rw [placeMines] at hpm
      split at hpm
      · rename_i hcard
        cases hpm
        exact ⟨hcard, hlen, hrow, hbound, hagree⟩
      · exact absurd hpm (by simp)
  | cons p ps ih =>
      intro m b res hp hlen hrow hbound hagree hpm
      rw [placeMines] at hpm
      split at hpm
      · rename_i hcard
        cases hpm
        exact ⟨hcard, hlen, hrow, hbound, hagree⟩
      · replace hpm : (if boardGet b p then placeMines n ps m b
            else placeMines n ps (insert p m) (boardSet b p)) = some res := hpm
        have hpb := hp p (List.mem_cons_self _ _)
        split at hpm
        · exact ih m b res (fun q hq => hp q (List.mem_cons_of_mem _ hq))
            hlen hrow hbound hagree hpm
        · have hrowlen : (b.getD p.1 []).length = w :=
            hrow _ (getD_mem b p.1 [] (by omega))
          have hlen2 : (boardSet b p).length = h := by
            unfold boardSet
            rw [List.length_set]
            exact hlen
          have hrow2 : ∀ r ∈ boardSet b p, r.length = w := by
            intro r hr
            rcases mem_of_mem_set _ _ _ _ hr with h1 | rfl
            · exact hrow r h1
            · rw [List.length_set]
              exact hrowlen
          have hbound2 : ∀ c ∈ insert p m, c.1 < h ∧ c.2 < w := by
            intro c hc
            rcases Finset.mem_insert.mp hc with rfl | hm2
            · exact hpb
            · exact hbound c hm2
          have hagree2 : ∀ i j, i < h → j < w →
              (boardGet (boardSet b p) (i, j) = true ↔ (i, j) ∈ insert p m) := by
            intro i j hi hj
            rw [boardGet_boardSet b p (i, j) (by omega) (by omega)]
            by_cases hq : ((i, j) : ℕ × ℕ) = p
            · rw [if_pos hq]
              constructor
              · intro _
                rw [hq]
                exact Finset.mem_insert_self _ _
              · intro _
                rfl
            · rw [if_neg hq, hagree i j hi hj]
              constructor
              · intro hm2
                exact Finset.mem_insert_of_mem hm2
              · intro hins
                rcases Finset.mem_insert.mp hins with he | hm2
                · exact absurd he hq
                · exact hm2
          exact ih (insert p m) (boardSet b p) res
            (fun q hq => hp q (List.mem_cons_of_mem _ hq))
            hlen2 hrow2 hbound2 hagree2 hpm

/-- Claim C10: a game constructed with `height`, `width` and a mine count of
at most `height * width` (for any draw of in-range `randrange` picks on
which the placement loop finishes) has exactly the requested number of
mines, all in bounds, with `board[i][j]` true exactly on the mine set — so
`is_mine` agrees with mine-set membership on every in-bounds cell; and
every operation of the class (`is_mine`, `nearby_mines`, `won`, `print`)
leaves the state unchanged, hence preserves all of this. -/
theorem ms_C10_init_invariants (h w n : ℕ) (picks : List (ℕ × ℕ)) (g : Minesweeper)
    (hn : n ≤ h * w) (hp : ∀ p ∈ picks, p.1 < h ∧ p.2 < w)
    (hinit : Minesweeper.init h w n picks = some g) :
    g.mines.card = n ∧ (∀ c ∈ g.mines, c.1 < h ∧ c.2 < w) ∧
    (∀ i j, i < h → j < w → (g.is_mine (i, j) = true ↔ (i, j) ∈ g.mines)) ∧
    (∀ op : GameOp, applyGameOp g op = g) := by
  unfold Minesweeper.init at hinit
  rcases hpm : placeMines n picks ∅ (emptyBoard h w) with _ | ⟨m, b⟩
  · rw [hpm] at hinit
    exact absurd hinit (by simp)
  · rw [hpm] at hinit
    simp only [Option.some.injEq] at hinit
    have h0len : (emptyBoard h w).length = h := by
      unfold emptyBoard
      exact List.length_replicate h _
    have h0row : ∀ r ∈ emptyBoard h w, r.length = w := by
      intro r hr
      rw [List.eq_of_mem_replicate hr]
      exact List.length_replicate w false
    have h0agree : ∀ i j, i < h → j < w →
        (boardGet (emptyBoard h w) (i, j) = true ↔ (i, j) ∈ (∅ : Finset (ℕ × ℕ))) := by
      intro i j hi hj
      unfold boardGet emptyBoard
      rw [getD_replicate h i _ [] hi, getD_replicate w j false false hj]
      simp
    have hres := placeMines_inv h w n picks ∅ (emptyBoard h w) (m, b) hp
      h0len h0row (by simp) h0agree hpm
    rw [← hinit]
    refine ⟨hres.1, hres.2.2.2.1, ?_, ?_⟩
    · intro i j hi hj
      exact hres.2.2.2.2 i j hi hj
    · intro op
      cases op <;> rfl

/-- Witness for C10 at a concrete 2×2 construction with one mine drawn at
`(0,0)`. -/
theorem ms_C10_init_invariants_witness :
    (Minesweeper.mk 2 2 [[true, false], [false, false]] {(0, 0)} ∅).mines.card = 1 ∧
    ((Minesweeper.mk 2 2 [[true, false], [false, false]] {(0, 0)} ∅).is_mine (0, 0) = true ↔
      (0, 0) ∈ (Minesweeper.mk 2 2 [[true, false], [false, false]] {(0, 0)} ∅).mines) ∧
    applyGameOp (Minesweeper.mk 2 2 [[true, false], [false, false]] {(0, 0)} ∅) GameOp.wonQ
      = Minesweeper.mk 2 2 [[true, false], [false, false]] {(0, 0)} ∅ := by
  have hres := ms_C10_init_invariants 2 2 1 [(0, 0)]
    (Minesweeper.mk 2 2 [[true, false], [false, false]] {(0, 0)} ∅)
    (by decide) (by decide) (by decide)
  exact ⟨hres.1, hres.2.2.1 0 0 (by decide) (by decide), hres.2.2.2 GameOp.wonQ⟩

